import Mathlib

/-!
Verification of the k-ary optimal question-asking oracle
(`oracle_kary100_dp.py`).

The Python module implements an exact dynamic program over candidate sets
of object identifiers:

* `KaryOracle.__init__` stores the attribute table (object id to attribute
  name to attribute value, all strings), rejects an empty table, and fixes
  sorted orders of object ids and attribute names.
* `KaryOracle._cost` is the Bellman-optimal expected number of remaining
  questions for a candidate set.
* `KaryOracle._best_attribute` returns the attribute realizing that cost
  (first one in sorted order under strict improvement).
* `KaryOracle.trajectory_for_target` simulates the optimal policy against
  a concrete target and records per-step entropies (log2 of the candidate
  count).
* `KaryOracle.mean_trajectory` averages trajectories elementwise.

Embedding choices:
* Candidate sets (`frozenset` of ids wrapped in `State`) are `Finset String`.
* Expected costs, computed with Python floats, are modelled as exact
  rationals `ℚ`; the specification treats the recurrence as exact
  arithmetic.
* Entropies (`math.log2`) are modelled as real numbers via `Real.logb 2`.
* Python exceptions are modelled with `Except OracleError`.
* `lru_cache` memoization caches a pure function and is semantically
  transparent, so it is not modelled.
* Python `sorted` on strings is `List.insertionSort (· ≤ ·)` under the
  lexicographic linear order on `String`.
-/

/-- The three error kinds of the module: `InvalidInput` is the
`ValueError` raised on an empty table at construction, `UnknownTarget` is
the `KeyError` raised by `trajectory_for_target`, and `EmptyInput` is the
`ValueError` raised by `mean_trajectory` on an empty target collection. -/
inductive OracleError where
  | invalidInput
  | unknownTarget (id : String)
  | emptyInput
deriving DecidableEq

/-- The oracle state built by `KaryOracle.__init__`: the attribute table
(object id to association list of attribute name / value), the sorted
object ids and the sorted attribute names.  The Python `dict` is modelled
by an association list (first binding wins, as with `dict` keys, which are
unique). -/
structure KaryOracle where
  table : List (String × List (String × String))
  objectIds : List String
  attributes : List String
deriving DecidableEq

namespace KaryOracle

/-- Models `self.table[obj_id][attr]`: attribute-value lookup.  The Python code
assumes both keys are present; missing keys are mapped to a default. -/
def attrVal (o : KaryOracle) (objId attr : String) : String :=
  (((o.table.lookup objId).getD []).lookup attr).getD ""

/-- Models `KaryOracle.__init__`: rejects an empty table, then fixes the sorted
object ids (`sorted(self.table.keys())`) and the sorted attribute names of
the first object (`sorted(next(iter(self.table.values())).keys())`). -/
def init (tbl : List (String × List (String × String))) :
    Except OracleError KaryOracle :=
  if tbl = [] then Except.error OracleError.invalidInput
  else
    Except.ok
      { table := tbl
        objectIds := List.insertionSort (· ≤ ·) (tbl.map Prod.fst)
        attributes :=
          List.insertionSort (· ≤ ·)
            (((tbl.head?.map (fun p => p.2.map Prod.fst)).getD [])) }

/-- The partition group of `ids` for value `v` of attribute `attr`
(`partitions[val]` in `_cost` / `_best_attribute`, and also the filtered
candidate set in `trajectory_for_target`). -/
def subsetFor (o : KaryOracle) (ids : Finset String) (attr v : String) :
    Finset String :=
  ids.filter (fun i => attrVal o i attr = v)

/-- The set of values attribute `attr` takes on `ids`
(`partitions.keys()`); its cardinality is the number of partition
groups. -/
def groupVals (o : KaryOracle) (ids : Finset String) (attr : String) :
    Finset String :=
  ids.image (fun i => attrVal o i attr)

/-- The attributes whose partition of `ids` has at least two groups, in
the fixed attribute order (the "eligible" attributes of the spec). -/
def eligibleAttrs (o : KaryOracle) (ids : Finset String) : List String :=
  o.attributes.filter (fun a => 2 ≤ (groupVals o ids a).card)

/-- A non-trivial partition group is strictly smaller than its parent
candidate set (this is the termination argument for `_cost`). -/
theorem subsetFor_card_lt (o : KaryOracle) (ids : Finset String)
    (attr v : String) (h2 : 2 ≤ (groupVals o ids attr).card) :
    (subsetFor o ids attr v).card < ids.card := by
  have h1 : 1 < (groupVals o ids attr).card := by omega
  obtain ⟨w, hw, hwv⟩ := Finset.exists_ne_of_one_lt_card h1 v
  obtain ⟨j, hj, hjw⟩ := Finset.mem_image.mp hw
  have hsub : subsetFor o ids attr v ⊆ ids := Finset.filter_subset _ _
  refine Finset.card_lt_card ((Finset.ssubset_iff_of_subset hsub).mpr ⟨j, hj, ?_⟩)
  intro hmem
  exact hwv (hjw ▸ (Finset.mem_filter.mp hmem).2)

/-- Models `KaryOracle._cost`: the Bellman-optimal expected number of remaining
questions from candidate set `ids`.  Sets of size at most one cost `0`;
otherwise every attribute with a non-trivial partition is tried in the
fixed attribute order, accumulating `1 + Σ_v (|S_v|/|S|) · cost S_v` and
keeping the strictly smallest value (`none` plays the role of the initial
`float("inf")`); if no attribute splits the set the cost is `0`. -/
def cost (o : KaryOracle) (ids : Finset String) : ℚ :=
  if ids.card ≤ 1 then 0
  else
    match o.attributes.foldl
      (fun best attr =>
        if h2 : 2 ≤ (groupVals o ids attr).card then
          let expected : ℚ := 1 + (groupVals o ids attr).attach.sum
            (fun v => ((subsetFor o ids attr v.1).card : ℚ) / (ids.card : ℚ)
              * cost o (subsetFor o ids attr v.1))
          match best with
          | none => some expected
          | some b => if expected < b then some expected else some b
        else best)
      none with
    | none => 0
    | some b => b
termination_by ids.card
decreasing_by exact subsetFor_card_lt o ids attr v.1 h2

/-- Models `Cost_a(S) = 1 + Σ_v (|S_v|/|S|) · Cost(S_v)`: the expected residual
cost of querying attribute `attr` at `ids` (the `expected` accumulator of
`_cost` and `_best_attribute`). -/
def costA (o : KaryOracle) (ids : Finset String) (attr : String) : ℚ :=
  1 + (groupVals o ids attr).sum
    (fun v => ((subsetFor o ids attr v).card : ℚ) / (ids.card : ℚ)
      * cost o (subsetFor o ids attr v))

/-- One step of the attribute loop of `_cost`: skip attributes with a
trivial partition, otherwise replace the incumbent best cost exactly when
the new expected cost is strictly smaller. -/
def stepQ (o : KaryOracle) (ids : Finset String) (best : Option ℚ)
    (attr : String) : Option ℚ :=
  if 2 ≤ (groupVals o ids attr).card then
    match best with
    | none => some (costA o ids attr)
    | some b => if costA o ids attr < b then some (costA o ids attr) else some b
  else best

/-- One step of the attribute loop of `_best_attribute`: the incumbent is
the pair (best cost, best attribute), replaced exactly on strict
improvement; `none` models the initial `(float("inf"), None)`. -/
def stepPair (o : KaryOracle) (ids : Finset String)
    (best : Option (ℚ × String)) (attr : String) : Option (ℚ × String) :=
  if 2 ≤ (groupVals o ids attr).card then
    match best with
    | none => some (costA o ids attr, attr)
    | some p =>
      if costA o ids attr < p.1 then some (costA o ids attr, attr) else some p
  else best

/-- Models `KaryOracle._best_attribute`: the attribute realizing the optimal
expected cost at `ids`, or `none` for sets of size at most one and sets no
attribute can split. -/
def bestAttribute (o : KaryOracle) (ids : Finset String) : Option String :=
  if ids.card ≤ 1 then none
  else (o.attributes.foldl (stepPair o ids) none).map Prod.snd

/-- Fuel-indexed evaluator for `cost`, used to reason about the recursion
depth of `_cost`: one unit of fuel is consumed per recursion level, and
`costFuel` agrees with `cost` as soon as the fuel dominates the number of
eligible attributes (proved below). -/
def costFuel (o : KaryOracle) : ℕ → Finset String → ℚ
  | 0, _ => 0
  | fuel + 1, ids =>
    if ids.card ≤ 1 then 0
    else
      match o.attributes.foldl
        (fun best attr =>
          if 2 ≤ (groupVals o ids attr).card then
            let expected : ℚ := 1 + (groupVals o ids attr).sum
              (fun v => ((subsetFor o ids attr v).card : ℚ) / (ids.card : ℚ)
                * costFuel o fuel (subsetFor o ids attr v))
            match best with
            | none => some expected
            | some b => if expected < b then some expected else some b
          else best)
        none with
      | none => 0
      | some b => b

/-- Fuel-indexed version of `costA`. -/
def costAFuel (o : KaryOracle) (fuel : ℕ) (ids : Finset String)
    (attr : String) : ℚ :=
  1 + (groupVals o ids attr).sum
    (fun v => ((subsetFor o ids attr v).card : ℚ) / (ids.card : ℚ)
      * costFuel o fuel (subsetFor o ids attr v))

/-- Fuel-indexed version of `bestAttribute` (the recursive cost of each
partition group is evaluated with the given fuel). -/
def bestAttributeFuel (o : KaryOracle) (fuel : ℕ) (ids : Finset String) :
    Option String :=
  if ids.card ≤ 1 then none
  else
    (o.attributes.foldl
      (fun best attr =>
        if 2 ≤ (groupVals o ids attr).card then
          match best with
          | none => some (costAFuel o fuel ids attr, attr)
          | some p =>
            if costAFuel o fuel ids attr < p.1 then
              some (costAFuel o fuel ids attr, attr)
            else some p
        else best)
      none).map Prod.snd

/-- The `log2` of a candidate count, the per-step entropy in bits. -/
noncomputable def entropyBits (n : ℕ) : ℝ := Real.logb 2 n

/-- The loop body of `trajectory_for_target`: at each of the remaining
steps, append `0.0` if at most one candidate is left or no attribute can
split the candidates; otherwise ask the optimal attribute, filter the
candidates to those sharing the target's value and append the entropy of
the filtered set. -/
noncomputable def trajLoop (o : KaryOracle) (targetId : String) :
    ℕ → Finset String → List ℝ
  | 0, _ => []
  | steps + 1, current =>
    if current.card ≤ 1 then
      (0 : ℝ) :: trajLoop o targetId steps current
    else
      match bestAttribute o current with
      | none => (0 : ℝ) :: trajLoop o targetId steps current
      | some attr =>
        (entropyBits (subsetFor o current attr (attrVal o targetId attr)).card)
          :: trajLoop o targetId steps
            (subsetFor o current attr (attrVal o targetId attr))

/-- Models `KaryOracle.trajectory_for_target`: rejects unknown target ids, then
runs `maxSteps` iterations of the optimal policy starting from the full
candidate set. -/
noncomputable def trajectoryForTarget (o : KaryOracle) (targetId : String)
    (maxSteps : ℕ) : Except OracleError (List ℝ) :=
  if (o.table.lookup targetId).isSome then
    Except.ok (trajLoop o targetId maxSteps o.objectIds.toFinset)
  else Except.error (OracleError.unknownTarget targetId)

/-- Models `KaryOracle.mean_trajectory`: computes every target's trajectory,
rejects an empty target collection, and averages entrywise over the first
`maxSteps` indices. -/
noncomputable def meanTrajectory (o : KaryOracle) (targetIds : List String)
    (maxSteps : ℕ) : Except OracleError (List ℝ) := do
  let trajectories ← targetIds.mapM (fun i => trajectoryForTarget o i maxSteps)
  if trajectories.length = 0 then Except.error OracleError.emptyInput
  else
    Except.ok ((List.range maxSteps).map (fun t =>
      (trajectories.map (fun traj => traj.getD t 0)).sum
        / (trajectories.length : ℝ)))

end KaryOracle

/-- The concrete four-object scenario of the spec: objects `0,1,2,3`, two
binary attributes `a ∈ {x,y}` and `b ∈ {p,q}`. -/
def tblEx : List (String × List (String × String)) :=
  [("0", [("a", "x"), ("b", "p")]),
   ("1", [("a", "x"), ("b", "q")]),
   ("2", [("a", "y"), ("b", "p")]),
   ("3", [("a", "y"), ("b", "q")])]

/-- The oracle built from `tblEx`. -/
def oEx : KaryOracle :=
  { table := tblEx
    objectIds := ["0", "1", "2", "3"]
    attributes := ["a", "b"] }

/-- The full candidate set of the concrete scenario. -/
def fullEx : Finset String := {"0", "1", "2", "3"}

namespace KaryOracle

/-- The step `stepPair` ignores attributes with a trivial partition. -/
theorem stepPair_not_elig (o : KaryOracle) (ids : Finset String)
    (best : Option (ℚ × String)) (attr : String)
    (h2 : ¬ 2 ≤ (groupVals o ids attr).card) :
    stepPair o ids best attr = best := by
  simp [stepPair, h2]

/-- The step `stepPair` adopts an eligible attribute when there is no incumbent. -/
theorem stepPair_none_elig (o : KaryOracle) (ids : Finset String)
    (attr : String) (h2 : 2 ≤ (groupVals o ids attr).card) :
    stepPair o ids none attr = some (costA o ids attr, attr) := by
  simp [stepPair, h2]

/-- The step `stepPair` replaces the incumbent on strict improvement. -/
theorem stepPair_some_lt (o : KaryOracle) (ids : Finset String)
    (p : ℚ × String) (attr : String) (h2 : 2 ≤ (groupVals o ids attr).card)
    (hlt : costA o ids attr < p.1) :
    stepPair o ids (some p) attr = some (costA o ids attr, attr) := by
  simp [stepPair, h2, hlt]

/-- The step `stepPair` keeps the incumbent when the new cost is not strictly
smaller. -/
theorem stepPair_some_ge (o : KaryOracle) (ids : Finset String)
    (p : ℚ × String) (attr : String) (h2 : 2 ≤ (groupVals o ids attr).card)
    (hge : ¬ costA o ids attr < p.1) :
    stepPair o ids (some p) attr = some p := by
  simp [stepPair, h2, hge]

/-- Folding a list with functions that agree on its members gives the same
result. -/
theorem foldl_congr_mem {α β : Type} :
    ∀ (l : List α) (f g : β → α → β) (b : β),
      (∀ x a, a ∈ l → f x a = g x a) → l.foldl f b = l.foldl g b := by
  intro l
  induction l with
  | nil => intro f g b _; rfl
  | cons a l ih =>
    intro f g b hfg
    rw [List.foldl_cons, List.foldl_cons, hfg b a (List.mem_cons_self a l)]
    exact ih f g (g b a) (fun x a' ha' => hfg x a' (List.mem_cons_of_mem a ha'))

/-- The function `cost` unfolded to the clean fold over `stepQ`. -/
theorem cost_eq (o : KaryOracle) (ids : Finset String) :
    cost o ids =
      if ids.card ≤ 1 then 0
      else
        match o.attributes.foldl (stepQ o ids) none with
        | none => 0
        | some b => b := by
  rw [cost]
  have hf : (fun (best : Option ℚ) (attr : String) =>
      if h2 : 2 ≤ (groupVals o ids attr).card then
        let expected : ℚ := 1 + (groupVals o ids attr).attach.sum
          (fun v => ((subsetFor o ids attr v.1).card : ℚ) / (ids.card : ℚ)
            * cost o (subsetFor o ids attr v.1))
        match best with
        | none => some expected
        | some b => if expected < b then some expected else some b
      else best) = stepQ o ids := by
    funext best attr
    by_cases h2 : 2 ≤ (groupVals o ids attr).card
    · cases best with
      | none =>
        simp only [stepQ, dif_pos h2, if_pos h2]
        rw [Finset.sum_attach (groupVals o ids attr)
          (fun y => ((subsetFor o ids attr y).card : ℚ) / (ids.card : ℚ)
            * cost o (subsetFor o ids attr y))]
        rfl
      | some b =>
        simp only [stepQ, dif_pos h2, if_pos h2]
        rw [Finset.sum_attach (groupVals o ids attr)
          (fun y => ((subsetFor o ids attr y).card : ℚ) / (ids.card : ℚ)
            * cost o (subsetFor o ids attr y))]
        rfl
    · simp only [stepQ, dif_neg h2, if_neg h2]
  rw [hf]

/-- The `stepQ` fold is the first projection of the `stepPair` fold. -/
theorem foldl_stepQ_map (o : KaryOracle) (ids : Finset String) :
    ∀ (l : List String) (acc : Option (ℚ × String)),
      l.foldl (stepQ o ids) (acc.map Prod.fst) =
        (l.foldl (stepPair o ids) acc).map Prod.fst := by
  intro l
  induction l with
  | nil => intro acc; rfl
  | cons a l ih =>
    intro acc
    rw [List.foldl_cons, List.foldl_cons]
    have hstep : stepQ o ids (acc.map Prod.fst) a =
        (stepPair o ids acc a).map Prod.fst := by
      by_cases h2 : 2 ≤ (groupVals o ids a).card
      · cases acc with
        | none => simp [stepQ, stepPair, h2]
        | some p =>
          by_cases hlt : costA o ids a < p.1
          · simp [stepQ, stepPair, h2, hlt]
          · simp [stepQ, stepPair, h2, hlt]
      · simp [stepQ, stepPair, h2]
    rw [hstep, ih]

/-- The `stepPair` fold returns `none` exactly when it started from `none`
and saw no eligible attribute. -/
theorem foldl_stepPair_none (o : KaryOracle) (ids : Finset String) :
    ∀ (l : List String) (acc : Option (ℚ × String)),
      l.foldl (stepPair o ids) acc = none ↔
        (acc = none ∧ ∀ a ∈ l, ¬ 2 ≤ (groupVals o ids a).card) := by
  intro l
  induction l with
  | nil =>
    intro acc
    simp
  | cons a l ih =>
    intro acc
    rw [List.foldl_cons, ih]
    constructor
    · rintro ⟨hstep, hrest⟩
      by_cases h2 : 2 ≤ (groupVals o ids a).card
      · exfalso
        cases acc with
        | none => rw [stepPair_none_elig o ids a h2] at hstep; cases hstep
        | some p =>
          by_cases hlt : costA o ids a < p.1
          · rw [stepPair_some_lt o ids p a h2 hlt] at hstep; cases hstep
          · rw [stepPair_some_ge o ids p a h2 hlt] at hstep; cases hstep
      · rw [stepPair_not_elig o ids acc a h2] at hstep
        refine ⟨hstep, fun b hb => ?_⟩
        rcases List.mem_cons.mp hb with rfl | hb
        · exact h2
        · exact hrest b hb
    · rintro ⟨hacc, hall⟩
      have h2 : ¬ 2 ≤ (groupVals o ids a).card :=
        hall a (List.mem_cons_self a l)
      rw [stepPair_not_elig o ids acc a h2]
      exact ⟨hacc, fun b hb => hall b (List.mem_cons_of_mem a hb)⟩

end KaryOracle

namespace KaryOracle

/-- Values computed by the `stepPair` fold: a `some` result is either the
untouched incumbent or the cost/name pair of an eligible attribute of the
list that strictly improved on the initial incumbent; the result never
exceeds the initial incumbent and is a lower bound of the expected costs
of all eligible attributes of the list. -/
theorem foldl_stepPair_some (o : KaryOracle) (ids : Finset String) :
    ∀ (l : List String) (acc : Option (ℚ × String)) (c : ℚ) (ca : String),
      l.foldl (stepPair o ids) acc = some (c, ca) →
      ((acc = some (c, ca) ∨
          (ca ∈ l ∧ 2 ≤ (groupVals o ids ca).card ∧ c = costA o ids ca ∧
            ∀ p, acc = some p → c < p.1)) ∧
        (∀ p, acc = some p → c ≤ p.1) ∧
        (∀ b ∈ l, 2 ≤ (groupVals o ids b).card → c ≤ costA o ids b)) := by
  intro l
  induction l with
  | nil =>
    intro acc c ca h
    simp only [List.foldl_nil] at h
    exact ⟨Or.inl h, fun p hp => by rw [h] at hp; cases hp; exact le_refl c,
      fun b hb => absurd hb (List.not_mem_nil b)⟩
  | cons a l ih =>
    intro acc c ca h
    rw [List.foldl_cons] at h
    by_cases h2 : 2 ≤ (groupVals o ids a).card
    · cases acc with
      | none =>
        rw [stepPair_none_elig o ids a h2] at h
        obtain ⟨hd, hv, hmin⟩ := ih _ c ca h
        have hca : c ≤ costA o ids a := hv (costA o ids a, a) rfl
        constructor
        · rcases hd with heq | ⟨hmem, hel, hc, _⟩
          · cases heq
            exact Or.inr ⟨List.mem_cons_self a l, h2, rfl,
              fun p hp => nomatch hp⟩
          · exact Or.inr ⟨List.mem_cons_of_mem a hmem, hel, hc,
              fun p hp => nomatch hp⟩
        · refine ⟨(fun p hp => nomatch hp), fun b hb hb2 => ?_⟩
          rcases List.mem_cons.mp hb with rfl | hb
          · exact hca
          · exact hmin b hb hb2
      | some p =>
        by_cases hlt : costA o ids a < p.1
        · rw [stepPair_some_lt o ids p a h2 hlt] at h
          obtain ⟨hd, hv, hmin⟩ := ih _ c ca h
          have hca : c ≤ costA o ids a := hv (costA o ids a, a) rfl
          constructor
          · rcases hd with heq | ⟨hmem, hel, hc, hstrict⟩
            · cases heq
              exact Or.inr ⟨List.mem_cons_self a l, h2, rfl,
                fun q hq => by cases hq; exact hlt⟩
            · refine Or.inr ⟨List.mem_cons_of_mem a hmem, hel, hc, ?_⟩
              intro q hq
              cases hq
              exact lt_trans (hstrict (costA o ids a, a) rfl) hlt
          · refine ⟨fun q hq => ?_, fun b hb hb2 => ?_⟩
            · cases hq; exact le_of_lt (lt_of_le_of_lt hca hlt)
            · rcases List.mem_cons.mp hb with rfl | hb
              · exact hca
              · exact hmin b hb hb2
        · rw [stepPair_some_ge o ids p a h2 hlt] at h
          obtain ⟨hd, hv, hmin⟩ := ih _ c ca h
          have hcp : c ≤ p.1 := hv p rfl
          constructor
          · rcases hd with heq | ⟨hmem, hel, hc, hstrict⟩
            · exact Or.inl heq
            · refine Or.inr ⟨List.mem_cons_of_mem a hmem, hel, hc, ?_⟩
              intro q hq
              cases hq
              exact hstrict p rfl
          · refine ⟨fun q hq => by cases hq; exact hcp, fun b hb hb2 => ?_⟩
            rcases List.mem_cons.mp hb with rfl | hb
            · exact le_trans hcp (le_of_not_lt hlt)
            · exact hmin b hb hb2
    · rw [stepPair_not_elig o ids acc a h2] at h
      obtain ⟨hd, hv, hmin⟩ := ih acc c ca h
      constructor
      · rcases hd with heq | ⟨hmem, hel, hc, hstrict⟩
        · exact Or.inl heq
        · exact Or.inr ⟨List.mem_cons_of_mem a hmem, hel, hc, hstrict⟩
      · refine ⟨hv, fun b hb hb2 => ?_⟩
        rcases List.mem_cons.mp hb with rfl | hb
        · exact absurd hb2 h2
        · exact hmin b hb hb2

end KaryOracle

namespace KaryOracle

/-- Tie-breaking in the `stepPair` fold: on a strictly sorted attribute
list whose elements all lie above the incumbent's name, the winning
attribute name is at most the name of every eligible attribute whose
expected cost ties with the winning cost. -/
theorem foldl_stepPair_tie (o : KaryOracle) (ids : Finset String) :
    ∀ (l : List String) (acc : Option (ℚ × String)) (c : ℚ) (ca : String),
      List.Pairwise (· < ·) l →
      (∀ p, acc = some p → ∀ b ∈ l, p.2 < b) →
      l.foldl (stepPair o ids) acc = some (c, ca) →
      ∀ b ∈ l, 2 ≤ (groupVals o ids b).card → costA o ids b = c → ca ≤ b := by
  intro l
  induction l with
  | nil => intro acc c ca _ _ _ b hb; exact absurd hb (List.not_mem_nil b)
  | cons a l ih =>
    intro acc c ca hp hacc h b hb hb2 htie
    obtain ⟨hal, hpl⟩ := List.pairwise_cons.mp hp
    rw [List.foldl_cons] at h
    rcases List.mem_cons.mp hb with rfl | hbl
    · -- the tying attribute is the head of the list
      cases acc with
      | none =>
        rw [stepPair_none_elig o ids b hb2] at h
        obtain ⟨hd, hv, _⟩ := foldl_stepPair_some o ids l _ c ca h
        rcases hd with heq | ⟨_, _, _, hstrict⟩
        · cases heq; exact le_refl ca
        · exact absurd (htie ▸ hstrict (costA o ids b, b) rfl) (lt_irrefl c)
      | some p =>
        by_cases hlt : costA o ids b < p.1
        · rw [stepPair_some_lt o ids p b hb2 hlt] at h
          obtain ⟨hd, hv, _⟩ := foldl_stepPair_some o ids l _ c ca h
          rcases hd with heq | ⟨_, _, _, hstrict⟩
          · cases heq; exact le_refl ca
          · exact absurd (htie ▸ hstrict (costA o ids b, b) rfl) (lt_irrefl c)
        · rw [stepPair_some_ge o ids p b hb2 hlt] at h
          obtain ⟨hd, hv, _⟩ := foldl_stepPair_some o ids l _ c ca h
          rcases hd with heq | ⟨_, _, _, hstrict⟩
          · cases heq
            exact le_of_lt (hacc (c, ca) rfl b (List.mem_cons_self b l))
          · have hc1 : c < p.1 := hstrict p rfl
            have hc2 : p.1 ≤ c := htie ▸ le_of_not_lt hlt
            exact absurd (lt_of_lt_of_le hc1 hc2) (lt_irrefl c)
    · -- the tying attribute is in the tail: use the induction hypothesis
      refine ih (stepPair o ids acc a) c ca hpl ?_ h b hbl hb2 htie
      intro q hq b' hb'
      by_cases h2a : 2 ≤ (groupVals o ids a).card
      · cases acc with
        | none =>
          rw [stepPair_none_elig o ids a h2a] at hq
          cases hq
          exact hal b' hb'
        | some p =>
          by_cases hlt : costA o ids a < p.1
          · rw [stepPair_some_lt o ids p a h2a hlt] at hq
            cases hq
            exact hal b' hb'
          · rw [stepPair_some_ge o ids p a h2a hlt] at hq
            cases hq
            exact hacc q rfl b' (List.mem_cons_of_mem a hb')
      · rw [stepPair_not_elig o ids acc a h2a] at hq
        exact hacc q hq b' (List.mem_cons_of_mem a hb')

/-- The list `eligibleAttrs` is empty exactly when no attribute splits `ids`. -/
theorem eligibleAttrs_eq_nil_iff (o : KaryOracle) (ids : Finset String) :
    eligibleAttrs o ids = [] ↔
      ∀ a ∈ o.attributes, ¬ 2 ≤ (groupVals o ids a).card := by
  simp [eligibleAttrs, List.filter_eq_nil_iff]

/-- Membership in `eligibleAttrs`. -/
theorem mem_eligibleAttrs (o : KaryOracle) (ids : Finset String)
    (a : String) :
    a ∈ eligibleAttrs o ids ↔
      a ∈ o.attributes ∧ 2 ≤ (groupVals o ids a).card := by
  simp [eligibleAttrs, List.mem_filter]

/-- An eligible attribute forces at least two candidates. -/
theorem one_lt_card_of_elig (o : KaryOracle) (ids : Finset String)
    (a : String) (ha : 2 ≤ (groupVals o ids a).card) : 1 < ids.card := by
  have h : (groupVals o ids a).card ≤ ids.card := Finset.card_image_le
  omega

/-- With no eligible attribute the cost is zero. -/
theorem cost_of_elig_empty (o : KaryOracle) (ids : Finset String)
    (he : eligibleAttrs o ids = []) : cost o ids = 0 := by
  rw [cost_eq]
  by_cases h1 : ids.card ≤ 1
  · rw [if_pos h1]
  · rw [if_neg h1]
    have hnone : o.attributes.foldl (stepPair o ids) none = none :=
      (foldl_stepPair_none o ids o.attributes none).mpr
        ⟨rfl, (eligibleAttrs_eq_nil_iff o ids).mp he⟩
    have hq : o.attributes.foldl (stepQ o ids) none = none := by
      have := foldl_stepQ_map o ids o.attributes none
      simp only [Option.map_none'] at this
      rw [this, hnone]
      rfl
    rw [hq]

/-- With at least two candidates and an eligible attribute, the cost is the
minimum expected cost over the eligible attributes, attained at one of
them. -/
theorem cost_spec (o : KaryOracle) (ids : Finset String)
    (h1 : ¬ ids.card ≤ 1) (hne : eligibleAttrs o ids ≠ []) :
    ∃ a ∈ eligibleAttrs o ids, cost o ids = costA o ids a ∧
      ∀ b ∈ eligibleAttrs o ids, costA o ids a ≤ costA o ids b := by
  have hfold : o.attributes.foldl (stepPair o ids) none ≠ none := by
    intro hcon
    obtain ⟨_, hall⟩ := (foldl_stepPair_none o ids o.attributes none).mp hcon
    exact hne ((eligibleAttrs_eq_nil_iff o ids).mpr hall)
  obtain ⟨⟨c, ca⟩, hsome⟩ := Option.ne_none_iff_exists'.mp hfold
  obtain ⟨hd, _, hmin⟩ := foldl_stepPair_some o ids o.attributes none c ca hsome
  rcases hd with heq | ⟨hmem, hel, hc, _⟩
  · cases heq
  · have hcost : cost o ids = c := by
      rw [cost_eq, if_neg h1]
      have hmap := foldl_stepQ_map o ids o.attributes none
      simp only [Option.map_none'] at hmap
      rw [hmap, hsome]
      rfl
    refine ⟨ca, (mem_eligibleAttrs o ids ca).mpr ⟨hmem, hel⟩, by rw [hcost, hc],
      fun b hb => ?_⟩
    obtain ⟨hbmem, hb2⟩ := (mem_eligibleAttrs o ids b).mp hb
    rw [← hc]
    exact hmin b hbmem hb2

end KaryOracle

namespace KaryOracle

/-- Selection by `_best_attribute` returns `none` exactly for small or unsplittable
candidate sets. -/
theorem bestAttribute_eq_none_iff (o : KaryOracle) (ids : Finset String) :
    bestAttribute o ids = none ↔
      ids.card ≤ 1 ∨ eligibleAttrs o ids = [] := by
  rw [bestAttribute]
  by_cases h1 : ids.card ≤ 1
  · simp [h1]
  · rw [if_neg h1]
    constructor
    · intro h
      rcases hopt : o.attributes.foldl (stepPair o ids) none with _ | p
      · exact Or.inr ((eligibleAttrs_eq_nil_iff o ids).mpr
          ((foldl_stepPair_none o ids o.attributes none).mp hopt).2)
      · rw [hopt] at h
        cases h
    · rintro (hc | he)
      · exact absurd hc h1
      · rw [(foldl_stepPair_none o ids o.attributes none).mpr
          ⟨rfl, (eligibleAttrs_eq_nil_iff o ids).mp he⟩]
        rfl

/-- A `some` answer of `_best_attribute` is an eligible attribute whose
expected cost is the optimal cost computed by `_cost`, minimal among all
eligible attributes. -/
theorem bestAttribute_eq_some_spec (o : KaryOracle) (ids : Finset String)
    (a : String) (h : bestAttribute o ids = some a) :
    a ∈ eligibleAttrs o ids ∧ costA o ids a = cost o ids ∧
      ∀ b ∈ eligibleAttrs o ids, costA o ids a ≤ costA o ids b := by
  rw [bestAttribute] at h
  by_cases h1 : ids.card ≤ 1
  · rw [if_pos h1] at h
    cases h
  · rw [if_neg h1] at h
    obtain ⟨⟨c, ca⟩, hsome, hsnd⟩ := Option.map_eq_some'.mp h
    have hca : ca = a := hsnd
    subst hca
    obtain ⟨hd, _, hmin⟩ :=
      foldl_stepPair_some o ids o.attributes none c ca hsome
    rcases hd with heq | ⟨hmem, hel, hc, _⟩
    · cases heq
    · have hcost : cost o ids = c := by
        rw [cost_eq, if_neg h1]
        have hmap := foldl_stepQ_map o ids o.attributes none
        simp only [Option.map_none'] at hmap
        rw [hmap, hsome]
        rfl
      refine ⟨(mem_eligibleAttrs o ids ca).mpr ⟨hmem, hel⟩,
        by rw [hcost, hc], fun b hb => ?_⟩
      obtain ⟨hbmem, hb2⟩ := (mem_eligibleAttrs o ids b).mp hb
      rw [← hc]
      exact hmin b hbmem hb2

/-- The cost function is everywhere non-negative (auxiliary version with a
bound on the candidate count). -/
theorem cost_nonneg_aux (o : KaryOracle) :
    ∀ (n : ℕ) (ids : Finset String), ids.card ≤ n → 0 ≤ cost o ids := by
  intro n
  induction n with
  | zero =>
    intro ids hcard
    rw [cost_eq, if_pos (by omega)]
  | succ n ih =>
    intro ids hcard
    by_cases h1 : ids.card ≤ 1
    · rw [cost_eq, if_pos h1]
    · by_cases he : eligibleAttrs o ids = []
      · rw [cost_of_elig_empty o ids he]
      · obtain ⟨a, ha, hcost, _⟩ := cost_spec o ids h1 he
        rw [hcost, costA]
        have hsum : 0 ≤ (groupVals o ids a).sum
            (fun v => ((subsetFor o ids a v).card : ℚ) / (ids.card : ℚ)
              * cost o (subsetFor o ids a v)) := by
          refine Finset.sum_nonneg (fun v _ => mul_nonneg ?_ ?_)
          · exact div_nonneg (Nat.cast_nonneg _) (Nat.cast_nonneg _)
          · refine ih (subsetFor o ids a v) ?_
            have hlt := subsetFor_card_lt o ids a v
              ((mem_eligibleAttrs o ids a).mp ha).2
            omega
        linarith

/-- The cost function is everywhere non-negative. -/
theorem cost_nonneg (o : KaryOracle) (ids : Finset String) :
    0 ≤ cost o ids :=
  cost_nonneg_aux o ids.card ids (le_refl _)

/-- Every expected residual cost is at least one (one question is asked). -/
theorem costA_ge_one (o : KaryOracle) (ids : Finset String) (attr : String) :
    1 ≤ costA o ids attr := by
  rw [costA]
  have hsum : 0 ≤ (groupVals o ids attr).sum
      (fun v => ((subsetFor o ids attr v).card : ℚ) / (ids.card : ℚ)
        * cost o (subsetFor o ids attr v)) := by
    refine Finset.sum_nonneg (fun v _ => mul_nonneg ?_ ?_)
    · exact div_nonneg (Nat.cast_nonneg _) (Nat.cast_nonneg _)
    · exact cost_nonneg o (subsetFor o ids attr v)
  linarith

end KaryOracle

namespace KaryOracle

/-- Filtering with a pointwise-stronger predicate keeps at most as many
elements. -/
theorem filter_length_le {α : Type} (p q : α → Bool)
    (hpq : ∀ a, p a = true → q a = true) (l : List α) :
    (l.filter p).length ≤ (l.filter q).length := by
  induction l with
  | nil => simp
  | cons a l ih =>
    rw [List.filter_cons, List.filter_cons]
    by_cases hp : p a = true
    · rw [if_pos hp, if_pos (hpq a hp)]
      simpa using ih
    · rw [if_neg hp]
      by_cases hq : q a = true
      · rw [if_pos hq]
        exact le_trans ih (by simp)
      · rw [if_neg hq]
        exact ih

/-- Filtering with a pointwise-stronger predicate that loses some list
member keeps strictly fewer elements. -/
theorem filter_length_lt {α : Type} (p q : α → Bool)
    (hpq : ∀ a, p a = true → q a = true) (l : List α) (x : α)
    (hx : x ∈ l) (hqx : q x = true) (hpx : ¬ p x = true) :
    (l.filter p).length < (l.filter q).length := by
  induction l with
  | nil => cases hx
  | cons a l ih =>
    rw [List.filter_cons, List.filter_cons]
    rcases List.mem_cons.mp hx with rfl | hxl
    · rw [if_neg hpx, if_pos hqx]
      have hle := filter_length_le p q hpq l
      simp only [List.length_cons]
      omega
    · by_cases hp : p a = true
      · rw [if_pos hp, if_pos (hpq a hp)]
        simpa using ih hxl
      · rw [if_neg hp]
        by_cases hq : q a = true
        · rw [if_pos hq]
          have := ih hxl
          simp only [List.length_cons]
          omega
        · rw [if_neg hq]
          exact ih hxl

/-- Partition groups take values inside the parent's value set, so the
group count never grows when passing to a subset. -/
theorem groupVals_mono (o : KaryOracle) (s t : Finset String)
    (hst : s ⊆ t) (b : String) : groupVals o s b ⊆ groupVals o t b :=
  Finset.image_subset_image hst

/-- After splitting on attribute `a`, every member of the group shares the
same value of `a`, so `a` can no longer split the group. -/
theorem groupVals_subsetFor_self (o : KaryOracle) (ids : Finset String)
    (a v : String) : (groupVals o (subsetFor o ids a v) a).card ≤ 1 := by
  have hsub : groupVals o (subsetFor o ids a v) a ⊆ {v} := by
    intro w hw
    obtain ⟨j, hj, hjw⟩ := Finset.mem_image.mp hw
    rw [Finset.mem_singleton, ← hjw]
    exact (Finset.mem_filter.mp hj).2
  exact le_trans (Finset.card_le_card hsub) (by simp)

/-- Splitting on an eligible attribute strictly decreases the number of
eligible attributes: the split attribute itself becomes ineligible and
ineligible attributes stay ineligible. -/
theorem eligLen_subsetFor_lt (o : KaryOracle) (ids : Finset String)
    (a v : String) (hmem : a ∈ o.attributes)
    (h2 : 2 ≤ (groupVals o ids a).card) :
    (eligibleAttrs o (subsetFor o ids a v)).length <
      (eligibleAttrs o ids).length := by
  refine filter_length_lt _ _ ?_ o.attributes a hmem ?_ ?_
  · intro b hb
    rw [decide_eq_true_eq] at hb ⊢
    exact le_trans hb (Finset.card_le_card
      (groupVals_mono o _ ids (Finset.filter_subset _ _) b))
  · exact decide_eq_true_eq.mpr h2
  · rw [decide_eq_true_eq]
    have := groupVals_subsetFor_self o ids a v
    omega

/-- Evaluation by `costFuel` computes `cost` whenever the fuel dominates the number of
eligible attributes; together with `eligLen_subsetFor_lt` this bounds the
recursion depth of `_cost` by the number of attributes. -/
theorem costFuel_eq (o : KaryOracle) :
    ∀ (fuel : ℕ) (ids : Finset String),
      (eligibleAttrs o ids).length ≤ fuel → costFuel o fuel ids = cost o ids := by
  intro fuel
  induction fuel with
  | zero =>
    intro ids hlen
    have he : eligibleAttrs o ids = [] :=
      List.length_eq_zero.mp (Nat.le_antisymm hlen (Nat.zero_le _))
    rw [cost_of_elig_empty o ids he]
    rfl
  | succ fuel ih =>
    intro ids hlen
    rw [costFuel, cost_eq]
    by_cases h1 : ids.card ≤ 1
    · rw [if_pos h1, if_pos h1]
    · rw [if_neg h1, if_neg h1]
      have hfold : o.attributes.foldl
          (fun best attr =>
            if 2 ≤ (groupVals o ids attr).card then
              let expected : ℚ := 1 + (groupVals o ids attr).sum
                (fun v => ((subsetFor o ids attr v).card : ℚ) / (ids.card : ℚ)
                  * costFuel o fuel (subsetFor o ids attr v))
              match best with
              | none => some expected
              | some b => if expected < b then some expected else some b
            else best)
          none = o.attributes.foldl (stepQ o ids) none := by
        refine foldl_congr_mem o.attributes _ _ none ?_
        intro best attr hattr
        by_cases h2 : 2 ≤ (groupVals o ids attr).card
        · have hsum : (groupVals o ids attr).sum
              (fun v => ((subsetFor o ids attr v).card : ℚ) / (ids.card : ℚ)
                * costFuel o fuel (subsetFor o ids attr v)) =
              (groupVals o ids attr).sum
              (fun v => ((subsetFor o ids attr v).card : ℚ) / (ids.card : ℚ)
                * cost o (subsetFor o ids attr v)) := by
            refine Finset.sum_congr rfl (fun v _ => ?_)
            congr 1
            refine ih (subsetFor o ids attr v) ?_
            have := eligLen_subsetFor_lt o ids attr v hattr h2
            omega
          simp only [stepQ, costA, if_pos h2, hsum]
        · simp only [stepQ, if_neg h2]
      rw [hfold]

/-- Fuel-indexed `costA` agrees with `costA` once the fuel dominates the
eligible-attribute count of the parent set for some eligible split. -/
theorem costAFuel_eq (o : KaryOracle) (fuel : ℕ) (ids : Finset String)
    (attr : String) (hmem : attr ∈ o.attributes)
    (h2 : 2 ≤ (groupVals o ids attr).card)
    (hlen : (eligibleAttrs o ids).length ≤ fuel + 1) :
    costAFuel o fuel ids attr = costA o ids attr := by
  rw [costAFuel, costA]
  congr 1
  refine Finset.sum_congr rfl (fun v _ => ?_)
  congr 1
  refine costFuel_eq o fuel (subsetFor o ids attr v) ?_
  have := eligLen_subsetFor_lt o ids attr v hmem h2
  omega

/-- Evaluation by `bestAttributeFuel` computes `bestAttribute` whenever the fuel
dominates the eligible-attribute count. -/
theorem bestAttributeFuel_eq (o : KaryOracle) (fuel : ℕ)
    (ids : Finset String)
    (hlen : (eligibleAttrs o ids).length ≤ fuel + 1) :
    bestAttributeFuel o fuel ids = bestAttribute o ids := by
  rw [bestAttributeFuel, bestAttribute]
  by_cases h1 : ids.card ≤ 1
  · rw [if_pos h1, if_pos h1]
  · rw [if_neg h1, if_neg h1]
    have hfold : o.attributes.foldl
        (fun best attr =>
          if 2 ≤ (groupVals o ids attr).card then
            match best with
            | none => some (costAFuel o fuel ids attr, attr)
            | some p =>
              if costAFuel o fuel ids attr < p.1 then
                some (costAFuel o fuel ids attr, attr)
              else some p
          else best)
        none = o.attributes.foldl (stepPair o ids) none := by
      refine foldl_congr_mem o.attributes _ _ none ?_
      intro best attr hattr
      by_cases h2 : 2 ≤ (groupVals o ids attr).card
      · have hA := costAFuel_eq o fuel ids attr hattr h2 hlen
        simp only [stepPair, if_pos h2, hA]
      · simp only [stepPair, if_neg h2]
    rw [hfold]

end KaryOracle

namespace KaryOracle

/-- Unfolding `trajLoop` when at most one candidate remains. -/
theorem trajLoop_succ_small (o : KaryOracle) (t : String) (steps : ℕ)
    (current : Finset String) (h1 : current.card ≤ 1) :
    trajLoop o t (steps + 1) current = 0 :: trajLoop o t steps current := by
  rw [trajLoop, if_pos h1]

/-- Unfolding `trajLoop` when no attribute can split the candidates. -/
theorem trajLoop_succ_none (o : KaryOracle) (t : String) (steps : ℕ)
    (current : Finset String) (h1 : ¬ current.card ≤ 1)
    (hba : bestAttribute o current = none) :
    trajLoop o t (steps + 1) current = 0 :: trajLoop o t steps current := by
  rw [trajLoop, if_neg h1, hba]

/-- Unfolding `trajLoop` when an optimal attribute is asked. -/
theorem trajLoop_succ_some (o : KaryOracle) (t : String) (steps : ℕ)
    (current : Finset String) (attr : String) (h1 : ¬ current.card ≤ 1)
    (hba : bestAttribute o current = some attr) :
    trajLoop o t (steps + 1) current =
      entropyBits (subsetFor o current attr (attrVal o t attr)).card
        :: trajLoop o t steps (subsetFor o current attr (attrVal o t attr)) := by
  rw [trajLoop, if_neg h1, hba]

/-- Reading with `getD` inside a replicated list. -/
theorem getD_replicate {α : Type} (x d : α) :
    ∀ (n j : ℕ), j < n → (List.replicate n x).getD j d = x := by
  intro n
  induction n with
  | zero => intro j hj; exact absurd hj (Nat.not_lt_zero j)
  | succ n ih =>
    intro j hj
    rw [List.replicate_succ]
    cases j with
    | zero => rw [List.getD_cons_zero]
    | succ j => rw [List.getD_cons_succ]; exact ih j (by omega)

/-- Zero entropy means at most one candidate. -/
theorem card_le_one_of_entropyBits_eq_zero (k : ℕ) (h : entropyBits k = 0) :
    k ≤ 1 := by
  rw [entropyBits] at h
  rcases Real.logb_eq_zero.mp h with h2 | h2 | h2 | h2 | h2 | h2
  · norm_num at h2
  · norm_num at h2
  · norm_num at h2
  · have hk : k = 0 := Nat.cast_eq_zero.mp h2
    omega
  · have hk : k = 1 := Nat.cast_eq_one.mp h2
    omega
  · have hk : (0 : ℝ) ≤ (k : ℝ) := Nat.cast_nonneg k
    rw [h2] at hk
    norm_num at hk

/-- The trajectory loop emits exactly one entry per remaining step. -/
theorem trajLoop_length (o : KaryOracle) (t : String) :
    ∀ (steps : ℕ) (current : Finset String),
      (trajLoop o t steps current).length = steps := by
  intro steps
  induction steps with
  | zero => intro current; rfl
  | succ steps ih =>
    intro current
    by_cases h1 : current.card ≤ 1
    · rw [trajLoop_succ_small o t steps current h1, List.length_cons, ih]
    · rcases hba : bestAttribute o current with _ | attr
      · rw [trajLoop_succ_none o t steps current h1 hba, List.length_cons, ih]
      · rw [trajLoop_succ_some o t steps current attr h1 hba,
          List.length_cons, ih]

/-- From a resolved or unsplittable state the loop emits only zeros and
never changes state. -/
theorem trajLoop_stuck (o : KaryOracle) (t : String) :
    ∀ (steps : ℕ) (current : Finset String),
      current.card ≤ 1 ∨ bestAttribute o current = none →
      trajLoop o t steps current = List.replicate steps 0 := by
  intro steps
  induction steps with
  | zero => intro current _; rfl
  | succ steps ih =>
    intro current h
    have hcons : trajLoop o t (steps + 1) current =
        0 :: trajLoop o t steps current := by
      rcases h with h1 | hnone
      · exact trajLoop_succ_small o t steps current h1
      · by_cases h1 : current.card ≤ 1
        · exact trajLoop_succ_small o t steps current h1
        · exact trajLoop_succ_none o t steps current h1 hnone
    rw [hcons, ih current h, List.replicate_succ]

/-- Zero entries are absorbing inside the trajectory loop. -/
theorem trajLoop_absorb (o : KaryOracle) (t : String) :
    ∀ (steps : ℕ) (current : Finset String) (i j : ℕ), i < j → j < steps →
      (trajLoop o t steps current).getD i 1 = 0 →
      (trajLoop o t steps current).getD j 1 = 0 := by
  intro steps
  induction steps with
  | zero => intro current i j _ hj _; exact absurd hj (Nat.not_lt_zero j)
  | succ steps ih =>
    intro current i j hij hj h0
    obtain ⟨j', rfl⟩ : ∃ j', j = j' + 1 := ⟨j - 1, by omega⟩
    by_cases h1 : current.card ≤ 1
    · rw [trajLoop_succ_small o t steps current h1, List.getD_cons_succ,
        trajLoop_stuck o t steps current (Or.inl h1)]
      exact getD_replicate (0 : ℝ) 1 steps j' (by omega)
    · rcases hba : bestAttribute o current with _ | attr
      · rw [trajLoop_succ_none o t steps current h1 hba, List.getD_cons_succ,
          trajLoop_stuck o t steps current (Or.inr hba)]
        exact getD_replicate (0 : ℝ) 1 steps j' (by omega)
      · rw [trajLoop_succ_some o t steps current attr h1 hba] at h0 ⊢
        rw [List.getD_cons_succ]
        cases i with
        | zero =>
          rw [List.getD_cons_zero] at h0
          have hcard :
              (subsetFor o current attr (attrVal o t attr)).card ≤ 1 :=
            card_le_one_of_entropyBits_eq_zero _ h0
          rw [trajLoop_stuck o t steps _ (Or.inl hcard)]
          exact getD_replicate (0 : ℝ) 1 steps j' (by omega)
        | succ i' =>
          rw [List.getD_cons_succ] at h0
          exact ih _ i' j' (by omega) (by omega) h0

/-- When the target belongs to the current candidate set, it stays a member
after every filtering step, so every emitted entry is non-negative and is
either a literal zero or the entropy of a positive candidate count. -/
theorem trajLoop_entries (o : KaryOracle) (t : String) :
    ∀ (steps : ℕ) (current : Finset String), t ∈ current →
      ∀ e ∈ trajLoop o t steps current,
        0 ≤ e ∧ (e = 0 ∨ ∃ k : ℕ, 1 ≤ k ∧ e = entropyBits k) := by
  intro steps
  induction steps with
  | zero => intro current _ e he; exact absurd he (List.not_mem_nil e)
  | succ steps ih =>
    intro current ht e he
    by_cases h1 : current.card ≤ 1
    · rw [trajLoop_succ_small o t steps current h1] at he
      rcases List.mem_cons.mp he with rfl | he'
      · exact ⟨le_refl 0, Or.inl rfl⟩
      · exact ih current ht e he'
    · rcases hba : bestAttribute o current with _ | attr
      · rw [trajLoop_succ_none o t steps current h1 hba] at he
        rcases List.mem_cons.mp he with rfl | he'
        · exact ⟨le_refl 0, Or.inl rfl⟩
        · exact ih current ht e he'
      · rw [trajLoop_succ_some o t steps current attr h1 hba] at he
        have htnew : t ∈ subsetFor o current attr (attrVal o t attr) :=
          Finset.mem_filter.mpr ⟨ht, rfl⟩
        have hk : 1 ≤ (subsetFor o current attr (attrVal o t attr)).card :=
          Finset.card_pos.mpr ⟨t, htnew⟩
        rcases List.mem_cons.mp he with rfl | he'
        · refine ⟨?_, Or.inr ⟨_, hk, rfl⟩⟩
          rw [entropyBits]
          refine Real.logb_nonneg one_lt_two ?_
          exact_mod_cast hk
        · exact ih _ htnew e he'

end KaryOracle

namespace KaryOracle

/-- Small candidate sets cost nothing. -/
theorem cost_of_card_le_one (o : KaryOracle) (ids : Finset String)
    (h : ids.card ≤ 1) : cost o ids = 0 := by
  rw [cost_eq, if_pos h]

end KaryOracle

open KaryOracle

/-- A list pairwise ordered on character lists is sorted as strings. -/
theorem sorted_le_of_chars (l : List String)
    (h : List.Pairwise (fun s t => s.toList ≤ t.toList) l) :
    List.Sorted (· ≤ ·) l :=
  h.imp (fun hst => String.le_iff_toList_le.mpr hst)

/-- A list strictly ordered on character lists is strictly sorted as
strings. -/
theorem sorted_lt_of_chars (l : List String)
    (h : List.Pairwise (fun s t => s.toList < t.toList) l) :
    List.Sorted (· < ·) l :=
  h.imp (fun hst => String.lt_iff_toList_lt.mpr hst)

/-- Construction by `init` builds `oEx` from the concrete table. -/
theorem init_tblEx : KaryOracle.init tblEx = Except.ok oEx := by
  have hids : List.insertionSort (· ≤ ·) (tblEx.map Prod.fst) =
      ["0", "1", "2", "3"] := by
    show List.insertionSort (· ≤ ·) ["0", "1", "2", "3"] = _
    exact List.Sorted.insertionSort_eq (sorted_le_of_chars _ (by decide))
  have hattrs : List.insertionSort (· ≤ ·)
      (((tblEx.head?.map (fun p => p.2.map Prod.fst)).getD [])) =
      ["a", "b"] := by
    show List.insertionSort (· ≤ ·) ["a", "b"] = _
    exact List.Sorted.insertionSort_eq (sorted_le_of_chars _ (by decide))
  rw [KaryOracle.init, if_neg (by decide : ¬ tblEx = []), hids, hattrs]
  rfl

/-- Expected residual cost of `b` on the pair `{0,1}`. -/
theorem costAEx_pair01 : costA oEx {"0", "1"} "b" = 1 := by
  rw [costA]
  rw [show groupVals oEx {"0", "1"} "b" = {"p", "q"} from by decide]
  rw [Finset.sum_insert (by decide), Finset.sum_singleton]
  rw [show subsetFor oEx {"0", "1"} "b" "p" = {"0"} from by decide]
  rw [show subsetFor oEx {"0", "1"} "b" "q" = {"1"} from by decide]
  rw [cost_of_card_le_one oEx {"0"} (by decide)]
  rw [cost_of_card_le_one oEx {"1"} (by decide)]
  rw [show (({"0"} : Finset String)).card = 1 from by decide]
  rw [show (({"1"} : Finset String)).card = 1 from by decide]
  rw [show (({"0", "1"} : Finset String)).card = 2 from by decide]
  norm_num

/-- Cost of the pair `{0,1}`. -/
theorem costEx_pair01 : cost oEx {"0", "1"} = 1 := by
  obtain ⟨a, ha, hcost, _⟩ := cost_spec oEx {"0", "1"} (by decide) (by decide)
  have he : eligibleAttrs oEx {"0", "1"} = ["b"] := by decide
  rw [he] at ha
  have ha' : a = "b" := List.mem_singleton.mp ha
  rw [hcost, ha', costAEx_pair01]

/-- Expected residual cost of `b` on the pair `{2,3}`. -/
theorem costAEx_pair23 : costA oEx {"2", "3"} "b" = 1 := by
  rw [costA]
  rw [show groupVals oEx {"2", "3"} "b" = {"p", "q"} from by decide]
  rw [Finset.sum_insert (by decide), Finset.sum_singleton]
  rw [show subsetFor oEx {"2", "3"} "b" "p" = {"2"} from by decide]
  rw [show subsetFor oEx {"2", "3"} "b" "q" = {"3"} from by decide]
  rw [cost_of_card_le_one oEx {"2"} (by decide)]
  rw [cost_of_card_le_one oEx {"3"} (by decide)]
  rw [show (({"2"} : Finset String)).card = 1 from by decide]
  rw [show (({"3"} : Finset String)).card = 1 from by decide]
  rw [show (({"2", "3"} : Finset String)).card = 2 from by decide]
  norm_num

/-- Cost of the pair `{2,3}`. -/
theorem costEx_pair23 : cost oEx {"2", "3"} = 1 := by
  obtain ⟨a, ha, hcost, _⟩ := cost_spec oEx {"2", "3"} (by decide) (by decide)
  have he : eligibleAttrs oEx {"2", "3"} = ["b"] := by decide
  rw [he] at ha
  have ha' : a = "b" := List.mem_singleton.mp ha
  rw [hcost, ha', costAEx_pair23]

/-- Expected residual cost of `a` on the pair `{0,2}`. -/
theorem costAEx_pair02 : costA oEx {"0", "2"} "a" = 1 := by
  rw [costA]
  rw [show groupVals oEx {"0", "2"} "a" = {"x", "y"} from by decide]
  rw [Finset.sum_insert (by decide), Finset.sum_singleton]
  rw [show subsetFor oEx {"0", "2"} "a" "x" = {"0"} from by decide]
  rw [show subsetFor oEx {"0", "2"} "a" "y" = {"2"} from by decide]
  rw [cost_of_card_le_one oEx {"0"} (by decide)]
  rw [cost_of_card_le_one oEx {"2"} (by decide)]
  rw [show (({"0"} : Finset String)).card = 1 from by decide]
  rw [show (({"2"} : Finset String)).card = 1 from by decide]
  rw [show (({"0", "2"} : Finset String)).card = 2 from by decide]
  norm_num

/-- Cost of the pair `{0,2}`. -/
theorem costEx_pair02 : cost oEx {"0", "2"} = 1 := by
  obtain ⟨a, ha, hcost, _⟩ := cost_spec oEx {"0", "2"} (by decide) (by decide)
  have he : eligibleAttrs oEx {"0", "2"} = ["a"] := by decide
  rw [he] at ha
  have ha' : a = "a" := List.mem_singleton.mp ha
  rw [hcost, ha', costAEx_pair02]

/-- Expected residual cost of `a` on the pair `{1,3}`. -/
theorem costAEx_pair13 : costA oEx {"1", "3"} "a" = 1 := by
  rw [costA]
  rw [show groupVals oEx {"1", "3"} "a" = {"x", "y"} from by decide]
  rw [Finset.sum_insert (by decide), Finset.sum_singleton]
  rw [show subsetFor oEx {"1", "3"} "a" "x" = {"1"} from by decide]
  rw [show subsetFor oEx {"1", "3"} "a" "y" = {"3"} from by decide]
  rw [cost_of_card_le_one oEx {"1"} (by decide)]
  rw [cost_of_card_le_one oEx {"3"} (by decide)]
  rw [show (({"1"} : Finset String)).card = 1 from by decide]
  rw [show (({"3"} : Finset String)).card = 1 from by decide]
  rw [show (({"1", "3"} : Finset String)).card = 2 from by decide]
  norm_num

/-- Cost of the pair `{1,3}`. -/
theorem costEx_pair13 : cost oEx {"1", "3"} = 1 := by
  obtain ⟨a, ha, hcost, _⟩ := cost_spec oEx {"1", "3"} (by decide) (by decide)
  have he : eligibleAttrs oEx {"1", "3"} = ["a"] := by decide
  rw [he] at ha
  have ha' : a = "a" := List.mem_singleton.mp ha
  rw [hcost, ha', costAEx_pair13]

/-- Expected residual cost of `a` at the full set. -/
theorem costAEx_full_a : costA oEx fullEx "a" = 2 := by
  rw [costA]
  rw [show groupVals oEx fullEx "a" = {"x", "y"} from by decide]
  rw [Finset.sum_insert (by decide), Finset.sum_singleton]
  rw [show subsetFor oEx fullEx "a" "x" = {"0", "1"} from by decide]
  rw [show subsetFor oEx fullEx "a" "y" = {"2", "3"} from by decide]
  rw [costEx_pair01, costEx_pair23]
  rw [show (({"0", "1"} : Finset String)).card = 2 from by decide]
  rw [show (({"2", "3"} : Finset String)).card = 2 from by decide]
  rw [show fullEx.card = 4 from by decide]
  norm_num

/-- Expected residual cost of `b` at the full set. -/
theorem costAEx_full_b : costA oEx fullEx "b" = 2 := by
  rw [costA]
  rw [show groupVals oEx fullEx "b" = {"p", "q"} from by decide]
  rw [Finset.sum_insert (by decide), Finset.sum_singleton]
  rw [show subsetFor oEx fullEx "b" "p" = {"0", "2"} from by decide]
  rw [show subsetFor oEx fullEx "b" "q" = {"1", "3"} from by decide]
  rw [costEx_pair02, costEx_pair13]
  rw [show (({"0", "2"} : Finset String)).card = 2 from by decide]
  rw [show (({"1", "3"} : Finset String)).card = 2 from by decide]
  rw [show fullEx.card = 4 from by decide]
  norm_num

/-- Cost of the full candidate set. -/
theorem costEx_full : cost oEx fullEx = 2 := by
  obtain ⟨a, ha, hcost, _⟩ := cost_spec oEx fullEx (by decide) (by decide)
  have he : eligibleAttrs oEx fullEx = ["a", "b"] := by decide
  rw [he] at ha
  rcases List.mem_cons.mp ha with h | h
  · rw [hcost, h, costAEx_full_a]
  · have ha' : a = "b" := List.mem_singleton.mp h
    rw [hcost, ha', costAEx_full_b]

/-- Attribute selection at the full set picks `a`. -/
theorem bestAttributeEx_full : bestAttribute oEx fullEx = some "a" := by
  have hge : ¬ costA oEx fullEx "b" < (costA oEx fullEx "a", "a").1 := by
    simp [costAEx_full_a, costAEx_full_b]
  have hfold : List.foldl (stepPair oEx fullEx) none ["a", "b"] =
      some (costA oEx fullEx "a", "a") := by
    rw [List.foldl_cons, stepPair_none_elig oEx fullEx "a" (by decide)]
    rw [List.foldl_cons,
      stepPair_some_ge oEx fullEx (costA oEx fullEx "a", "a") "b" (by decide) hge]
    rw [List.foldl_nil]
  rw [bestAttribute, if_neg (by decide)]
  rw [show oEx.attributes = ["a", "b"] from rfl, hfold]
  rfl

/-- Attribute selection at the pair `{0,1}` picks `b`. -/
theorem bestAttributeEx_pair01 : bestAttribute oEx {"0", "1"} = some "b" := by
  have hfold : List.foldl (stepPair oEx {"0", "1"}) none ["a", "b"] =
      some (costA oEx {"0", "1"} "b", "b") := by
    rw [List.foldl_cons, stepPair_not_elig oEx {"0", "1"} none "a" (by decide)]
    rw [List.foldl_cons, stepPair_none_elig oEx {"0", "1"} "b" (by decide)]
    rw [List.foldl_nil]
  rw [bestAttribute, if_neg (by decide)]
  rw [show oEx.attributes = ["a", "b"] from rfl, hfold]
  rfl

/-- Entropy of a two-element candidate set is one bit. -/
theorem entropyBits_two : entropyBits 2 = 1 := by
  rw [entropyBits, Nat.cast_ofNat]
  exact Real.logb_self_eq_one (by norm_num)

/-- Entropy of a singleton candidate set is zero. -/
theorem entropyBits_one : entropyBits 1 = 0 := by
  rw [entropyBits, Nat.cast_one, Real.logb_one]

/-- The concrete trajectory for target `0` with three steps. -/
theorem trajEx : trajectoryForTarget oEx "0" 3 = Except.ok [1, 0, 0] := by
  rw [trajectoryForTarget, if_pos (by decide)]
  congr 1
  rw [show oEx.objectIds.toFinset = fullEx from by decide]
  rw [trajLoop_succ_some oEx "0" 2 fullEx "a" (by decide) bestAttributeEx_full]
  rw [show subsetFor oEx fullEx "a" (attrVal oEx "0" "a") = {"0", "1"} from
    by decide]
  rw [trajLoop_succ_some oEx "0" 1 {"0", "1"} "b" (by decide)
    bestAttributeEx_pair01]
  rw [show subsetFor oEx {"0", "1"} "b" (attrVal oEx "0" "b") = {"0"} from
    by decide]
  rw [trajLoop_succ_small oEx "0" 0 {"0"} (by decide)]
  rw [show (({"0", "1"} : Finset String)).card = 2 from by decide]
  rw [show (({"0"} : Finset String)).card = 1 from by decide]
  rw [entropyBits_two, entropyBits_one]
  rw [show trajLoop oEx "0" 0 {"0"} = ([] : List ℝ) from rfl]

namespace KaryOracle

/-- A successful lookup key occurs among the association-list keys. -/
theorem mem_keys_of_lookup_isSome {β : Type} :
    ∀ (l : List (String × β)) (k : String),
      (l.lookup k).isSome → k ∈ l.map Prod.fst := by
  intro l
  induction l with
  | nil => intro k h; simp [List.lookup] at h
  | cons p l ih =>
    intro k h
    rcases p with ⟨a, b⟩
    rw [List.map_cons]
    by_cases hk : k == a
    · exact List.mem_cons.mpr (Or.inl (eq_of_beq hk))
    · refine List.mem_cons.mpr (Or.inr (ih k ?_))
      rw [List.lookup] at h
      rw [Bool.not_eq_true] at hk
      rw [hk] at h
      exact h

end KaryOracle

/-- C1: for every candidate set drawn from the attribute table, `_cost`
satisfies the Bellman recurrence: the cost is `0` for sets of size at most
one, `0` when no attribute is eligible, and otherwise the minimum over the
eligible attributes `a` of `1 + Σ_v (|S_v|/|S|) · Cost(S_v)`, attained at
one of them. -/
theorem cost_bellman (o : KaryOracle) (ids : Finset String) :
    (ids.card ≤ 1 → cost o ids = 0) ∧
    (1 < ids.card → eligibleAttrs o ids = [] → cost o ids = 0) ∧
    (1 < ids.card → eligibleAttrs o ids ≠ [] →
      ∃ a ∈ eligibleAttrs o ids, cost o ids = costA o ids a ∧
        ∀ b ∈ eligibleAttrs o ids, costA o ids a ≤ costA o ids b) :=
  ⟨fun h1 => cost_of_card_le_one o ids h1,
    fun _ he => cost_of_elig_empty o ids he,
    fun h1 hne => cost_spec o ids (by omega) hne⟩

/-- Witness for C1 at the concrete scenario. -/
theorem cost_bellman_witness :
    1 < fullEx.card ∧ eligibleAttrs oEx fullEx ≠ [] ∧
      ∃ a ∈ eligibleAttrs oEx fullEx, cost oEx fullEx = costA oEx fullEx a ∧
        ∀ b ∈ eligibleAttrs oEx fullEx,
          costA oEx fullEx a ≤ costA oEx fullEx b :=
  ⟨by decide, by decide, (cost_bellman oEx fullEx).2.2 (by decide) (by decide)⟩

/-- C2: with the attribute names strictly sorted, at least two candidates
and some eligible attribute, `_best_attribute` returns an eligible
attribute of minimal expected cost whose name is at most the name of every
cost-tying eligible attribute — the alphabetically first minimizer, since
an attribute only replaces the incumbent on strictly lower cost. -/
theorem bestAttribute_tiebreak (o : KaryOracle) (ids : Finset String)
    (hs : List.Sorted (· < ·) o.attributes) (hcard : 2 ≤ ids.card)
    (hne : eligibleAttrs o ids ≠ []) :
    ∃ a, bestAttribute o ids = some a ∧ a ∈ eligibleAttrs o ids ∧
      (∀ b ∈ eligibleAttrs o ids, costA o ids a ≤ costA o ids b) ∧
      (∀ b ∈ eligibleAttrs o ids, costA o ids b = costA o ids a → a ≤ b) := by
  have h1 : ¬ ids.card ≤ 1 := by omega
  have hnone : bestAttribute o ids ≠ none := by
    rw [Ne, bestAttribute_eq_none_iff]
    push_neg
    exact ⟨by omega, hne⟩
  obtain ⟨a, ha⟩ := Option.ne_none_iff_exists'.mp hnone
  obtain ⟨hmem, _, hmin⟩ := bestAttribute_eq_some_spec o ids a ha
  refine ⟨a, ha, hmem, hmin, ?_⟩
  intro b hb htie
  rw [bestAttribute, if_neg h1] at ha
  obtain ⟨⟨c, ca⟩, hsome, hsnd⟩ := Option.map_eq_some'.mp ha
  have hca : ca = a := hsnd
  subst hca
  obtain ⟨hd, _, _⟩ := foldl_stepPair_some o ids o.attributes none c ca hsome
  rcases hd with heq | ⟨_, _, hc, _⟩
  · cases heq
  · obtain ⟨hbmem, hb2⟩ := (mem_eligibleAttrs o ids b).mp hb
    refine foldl_stepPair_tie o ids o.attributes none c ca hs
      (fun p hp => nomatch hp) hsome b hbmem hb2 ?_
    rw [htie, hc]

/-- Witness for C2 at the concrete scenario. -/
theorem bestAttribute_tiebreak_witness :
    List.Sorted (· < ·) oEx.attributes ∧ 2 ≤ fullEx.card ∧
      eligibleAttrs oEx fullEx ≠ [] ∧
      ∃ a, bestAttribute oEx fullEx = some a ∧
        a ∈ eligibleAttrs oEx fullEx ∧
        (∀ b ∈ eligibleAttrs oEx fullEx,
          costA oEx fullEx a ≤ costA oEx fullEx b) ∧
        (∀ b ∈ eligibleAttrs oEx fullEx,
          costA oEx fullEx b = costA oEx fullEx a → a ≤ b) :=
  ⟨sorted_lt_of_chars _ (by decide), by decide, by decide,
    bestAttribute_tiebreak oEx fullEx (sorted_lt_of_chars _ (by decide))
      (by decide) (by decide)⟩

/-- C3: in the concrete four-object scenario the optimal cost of the full
set is exactly `2`, attribute selection at the full set picks `a`, and the
trajectory for target `0` with three steps is exactly `[1, 0, 0]`. -/
theorem concrete_scenario :
    cost oEx fullEx = 2 ∧ bestAttribute oEx fullEx = some "a" ∧
      trajectoryForTarget oEx "0" 3 = Except.ok [1, 0, 0] :=
  ⟨costEx_full, bestAttributeEx_full, trajEx⟩

/-- C4: every successful trajectory has length exactly `maxSteps`, and
`maxSteps = 0` yields the empty sequence for any valid target. -/
theorem trajectory_length_spec (o : KaryOracle) :
    (∀ (t : String) (n : ℕ) (l : List ℝ),
      trajectoryForTarget o t n = Except.ok l → l.length = n) ∧
    (∀ t : String, (o.table.lookup t).isSome →
      trajectoryForTarget o t 0 = Except.ok []) := by
  constructor
  · intro t n l h
    rw [trajectoryForTarget] at h
    by_cases hm : (o.table.lookup t).isSome
    · rw [if_pos hm] at h
      cases h
      exact trajLoop_length o t n _
    · rw [if_neg hm] at h
      cases h
  · intro t hm
    rw [trajectoryForTarget, if_pos hm]
    rfl

/-- Witness for C4 at the concrete scenario. -/
theorem trajectory_length_spec_witness :
    ([1, 0, 0] : List ℝ).length = 3 ∧
      trajectoryForTarget oEx "0" 0 = Except.ok [] :=
  ⟨(trajectory_length_spec oEx).1 "0" 3 [1, 0, 0] trajEx,
    (trajectory_length_spec oEx).2 "0" (by decide)⟩

/-- C5: inside any returned trajectory a zero entry is absorbing: every
entry after a zero entry is also zero. -/
theorem trajectory_zero_absorbing (o : KaryOracle) (t : String) (n : ℕ)
    (l : List ℝ) (h : trajectoryForTarget o t n = Except.ok l) (i j : ℕ)
    (hij : i < j) (hj : j < l.length) (h0 : l.getD i 1 = 0) :
    l.getD j 1 = 0 := by
  rw [trajectoryForTarget] at h
  by_cases hm : (o.table.lookup t).isSome
  · rw [if_pos hm] at h
    cases h
    have hlen := trajLoop_length o t n o.objectIds.toFinset
    exact trajLoop_absorb o t n _ i j hij (by omega) h0
  · rw [if_neg hm] at h
    cases h

/-- Witness for C5 at the concrete scenario. -/
theorem trajectory_zero_absorbing_witness :
    trajectoryForTarget oEx "0" 3 = Except.ok [1, 0, 0] ∧
      ([1, 0, 0] : List ℝ).getD 1 1 = 0 ∧
      ([1, 0, 0] : List ℝ).getD 2 1 = 0 :=
  ⟨trajEx, by norm_num [List.getD_cons_succ, List.getD_cons_zero],
    trajectory_zero_absorbing oEx "0" 3 [1, 0, 0] trajEx 1 2 (by norm_num)
      (by norm_num)
      (by norm_num [List.getD_cons_succ, List.getD_cons_zero])⟩

/-- C6: the cost vanishes exactly on candidate sets of size at most one or
with no eligible attribute; whenever some attribute is eligible the cost
is at least one. -/
theorem cost_zero_iff (o : KaryOracle) (ids : Finset String) :
    (cost o ids = 0 ↔ ids.card ≤ 1 ∨ eligibleAttrs o ids = []) ∧
    (eligibleAttrs o ids ≠ [] → 1 ≤ cost o ids) := by
  have hpos : eligibleAttrs o ids ≠ [] → 1 ≤ cost o ids := by
    intro hne
    obtain ⟨a, ha⟩ := List.exists_mem_of_ne_nil _ hne
    obtain ⟨hamem, ha2⟩ := (mem_eligibleAttrs o ids a).mp ha
    have h1 : ¬ ids.card ≤ 1 := by
      have := one_lt_card_of_elig o ids a ha2
      omega
    obtain ⟨b, _, hcost, _⟩ := cost_spec o ids h1 hne
    rw [hcost]
    exact costA_ge_one o ids b
  refine ⟨⟨?_, ?_⟩, hpos⟩
  · intro h0
    by_contra hcon
    push_neg at hcon
    obtain ⟨_, hne⟩ := hcon
    have := hpos hne
    rw [h0] at this
    norm_num at this
  · rintro (h1 | he)
    · exact cost_of_card_le_one o ids h1
    · exact cost_of_elig_empty o ids he

/-- Witness for C6 at the concrete scenario. -/
theorem cost_zero_iff_witness :
    eligibleAttrs oEx fullEx ≠ [] ∧ 1 ≤ cost oEx fullEx :=
  ⟨by decide, (cost_zero_iff oEx fullEx).2 (by decide)⟩

/-- C7: constructing from an empty table yields the `InvalidInput` error
while non-empty tables construct successfully; `trajectory_for_target`
yields the `UnknownTarget` error exactly for ids absent from the table;
`mean_trajectory` of an empty target collection yields the `EmptyInput`
error; every failure is a returned error value, so no partial result is
produced. -/
theorem error_contracts :
    (KaryOracle.init [] = Except.error OracleError.invalidInput) ∧
    (∀ tbl, tbl ≠ [] → ∃ o, KaryOracle.init tbl = Except.ok o) ∧
    (∀ (o : KaryOracle) (t : String) (n : ℕ), o.table.lookup t = none →
      trajectoryForTarget o t n =
        Except.error (OracleError.unknownTarget t)) ∧
    (∀ (o : KaryOracle) (t : String) (n : ℕ), (o.table.lookup t).isSome →
      ∃ l, trajectoryForTarget o t n = Except.ok l) ∧
    (∀ (o : KaryOracle) (n : ℕ),
      meanTrajectory o [] n = Except.error OracleError.emptyInput) := by
  refine ⟨rfl, ?_, ?_, ?_, ?_⟩
  · intro tbl hne
    rw [KaryOracle.init, if_neg hne]
    exact ⟨_, rfl⟩
  · intro o t n hnone
    rw [trajectoryForTarget, if_neg (by simp [hnone])]
  · intro o t n hsome
    rw [trajectoryForTarget, if_pos hsome]
    exact ⟨_, rfl⟩
  · intro o n
    rfl

/-- Witness for C7 at concrete inputs. -/
theorem error_contracts_witness :
    tblEx ≠ [] ∧ (∃ o, KaryOracle.init tblEx = Except.ok o) ∧
      oEx.table.lookup "z" = none ∧
      trajectoryForTarget oEx "z" 1 =
        Except.error (OracleError.unknownTarget "z") ∧
      (oEx.table.lookup "0").isSome ∧
      (∃ l, trajectoryForTarget oEx "0" 1 = Except.ok l) ∧
      meanTrajectory oEx [] 5 = Except.error OracleError.emptyInput :=
  ⟨by decide, error_contracts.2.1 tblEx (by decide), by decide,
    error_contracts.2.2.1 oEx "z" 1 (by decide), by decide,
    error_contracts.2.2.2.1 oEx "0" 1 (by decide),
    error_contracts.2.2.2.2 oEx 5⟩

/-- C8: for an oracle built by `init` and any successful trajectory, the
target stays inside every candidate set reached by the loop, so each entry
is a finite non-negative real: either a literal zero or the entropy of a
strictly positive candidate count (`log2` is never applied to a
non-positive count). -/
theorem trajectory_entries_safe
    (tbl : List (String × List (String × String))) (o : KaryOracle)
    (t : String) (n : ℕ) (l : List ℝ)
    (ho : KaryOracle.init tbl = Except.ok o)
    (h : trajectoryForTarget o t n = Except.ok l) :
    ∀ e ∈ l, 0 ≤ e ∧ (e = 0 ∨ ∃ k : ℕ, 1 ≤ k ∧ e = entropyBits k) := by
  rw [trajectoryForTarget] at h
  by_cases hm : (o.table.lookup t).isSome
  · rw [if_pos hm] at h
    cases h
    refine trajLoop_entries o t n o.objectIds.toFinset ?_
    rw [KaryOracle.init] at ho
    by_cases htbl : tbl = []
    · rw [if_pos htbl] at ho
      cases ho
    · rw [if_neg htbl] at ho
      cases ho
      rw [List.mem_toFinset]
      refine (List.perm_insertionSort (· ≤ ·) (tbl.map Prod.fst)).mem_iff.mpr ?_
      exact mem_keys_of_lookup_isSome tbl t hm
  · rw [if_neg hm] at h
    cases h

/-- Witness for C8 at the concrete scenario. -/
theorem trajectory_entries_safe_witness :
    KaryOracle.init tblEx = Except.ok oEx ∧
      trajectoryForTarget oEx "0" 3 = Except.ok [1, 0, 0] ∧
      ∀ e ∈ ([1, 0, 0] : List ℝ),
        0 ≤ e ∧ (e = 0 ∨ ∃ k : ℕ, 1 ≤ k ∧ e = entropyBits k) :=
  ⟨init_tblEx, trajEx,
    trajectory_entries_safe tblEx oEx "0" 3 [1, 0, 0] init_tblEx trajEx⟩

/-- C9: `_best_attribute` refines `_cost`: it returns `none` exactly on
candidate sets of size at most one or with no eligible attribute, and any
returned attribute is eligible with expected cost exactly the optimal cost
computed by `_cost`. -/
theorem bestAttribute_refines_cost (o : KaryOracle) (ids : Finset String) :
    (bestAttribute o ids = none ↔
      ids.card ≤ 1 ∨ eligibleAttrs o ids = []) ∧
    (∀ a, bestAttribute o ids = some a → a ∈ eligibleAttrs o ids ∧
      costA o ids a = cost o ids) := by
  refine ⟨bestAttribute_eq_none_iff o ids, fun a ha => ?_⟩
  obtain ⟨hmem, hc, _⟩ := bestAttribute_eq_some_spec o ids a ha
  exact ⟨hmem, hc⟩

/-- Witness for C9 at the concrete scenario. -/
theorem bestAttribute_refines_cost_witness :
    bestAttribute oEx fullEx = some "a" ∧
      "a" ∈ eligibleAttrs oEx fullEx ∧
      costA oEx fullEx "a" = cost oEx fullEx :=
  ⟨bestAttributeEx_full,
    (bestAttribute_refines_cost oEx fullEx).2 "a" bestAttributeEx_full⟩

/-- C10: termination structure of `_cost`: every recursive call is on a
strictly smaller candidate set; the split attribute becomes ineligible in
every partition group while ineligible attributes stay ineligible, so each
recursion level loses at least one eligible attribute; consequently the
fuel-bounded evaluator computes `cost` once the fuel reaches the number of
eligible attributes, which is at most the number of attributes. -/
theorem cost_recursion_bounds (o : KaryOracle) :
    (∀ (ids : Finset String) (a v : String),
      2 ≤ (groupVals o ids a).card →
        (subsetFor o ids a v).card < ids.card) ∧
    (∀ (ids : Finset String) (a v b : String),
      (groupVals o ids b).card ≤ 1 ∨ b = a →
        (groupVals o (subsetFor o ids a v) b).card ≤ 1) ∧
    (∀ (ids : Finset String) (fuel : ℕ),
      (eligibleAttrs o ids).length ≤ fuel →
        costFuel o fuel ids = cost o ids) ∧
    (∀ ids : Finset String,
      (eligibleAttrs o ids).length ≤ o.attributes.length) := by
  refine ⟨fun ids a v h2 => subsetFor_card_lt o ids a v h2, ?_,
    fun ids fuel h => costFuel_eq o fuel ids h,
    fun ids => List.length_filter_le _ _⟩
  rintro ids a v b (hb | rfl)
  · exact le_trans (Finset.card_le_card
      (groupVals_mono o _ ids (Finset.filter_subset _ _) b)) hb
  · exact groupVals_subsetFor_self o ids b v

/-- Witness for C10 at the concrete scenario. -/
theorem cost_recursion_bounds_witness :
    2 ≤ (groupVals oEx fullEx "a").card ∧
      (subsetFor oEx fullEx "a" "x").card < fullEx.card ∧
      (eligibleAttrs oEx fullEx).length ≤ 2 ∧
      costFuel oEx 2 fullEx = cost oEx fullEx :=
  ⟨by decide, (cost_recursion_bounds oEx).1 fullEx "a" "x" (by decide),
    by decide, (cost_recursion_bounds oEx).2.2.1 fullEx 2 (by decide)⟩
